import Mathlib

/-
Formal model of the metadata-indexing and semantic-search core of the
sas-clinical-macros repository, embedded shallowly from
docs/generate_docs.py (extractor and index builder) and
docs/search_api.py (index store and search service).

Numeric conventions: embedding vectors are lists of rationals; FAISS
IndexFlatL2 distances (squared L2) are exact rationals; the FLT_MAX
sentinel FAISS places in padded result slots is modelled by the large
constant fltMax.  The external SentenceTransformer embedder is an
injected function String -> List Rat, per the capability boundary of the
spec.
-/

set_option maxRecDepth 16000

namespace SasDocs

/-- One parameter entry of a macro record, as stored under the
parameters key of the parsed YAML header. -/
structure Param where
  name : String
  ptype : String
  required : Bool
  description : String
  default : Option String
  deriving DecidableEq

/-- One usage example entry of a macro record. -/
structure UsageExample where
  description : String
  code : String
  deriving DecidableEq

/-- A macro documentation record: the parsed YAML header of one .sas
file, with the source path attached by process_macros. -/
structure MacroRecord where
  name : String
  description : String
  category : String
  tags : List String
  parameters : List Param
  examples : List UsageExample
  filepath : String
  deriving DecidableEq

/-- Python str.join semantics: sep.join(parts). -/
def pyJoin (sep : String) : List String → String
  | [] => ""
  | [x] => x
  | x :: y :: xs => x ++ sep ++ pyJoin sep (y :: xs)

/-- The composite text create_embeddings builds for one record: the
text_parts list [name, description, category, tags joined by a space]
plus one part per parameter (its name, a space, its description), all
joined by a single space. -/
def compositeText (m : MacroRecord) : String :=
  pyJoin " " ([m.name, m.description, m.category, pyJoin " " m.tags] ++
    m.parameters.map (fun p => p.name ++ " " ++ p.description))

/-- Helper for the spec-side reading of the composite text: prepend sep
to every element and concatenate. -/
def prependEach (sep : String) : List String → String
  | [] => ""
  | x :: xs => sep ++ x ++ prependEach sep xs

/-- Modelled from the spec wording of the composite text contract: the
concatenation, in this fixed order and joined by a single space, of
name, description, category, the space-joined tags, and then for each
parameter in order its name followed by its description. -/
def specCompositeText (m : MacroRecord) : String :=
  m.name ++ " " ++ m.description ++ " " ++ m.category ++ " " ++ pyJoin " " m.tags ++
    prependEach " " (m.parameters.map (fun p => p.name ++ " " ++ p.description))

theorem strAppend_empty (a : String) : a ++ "" = a := by
  apply String.ext
  simp [String.data_append]

theorem strAppend_assoc (a b c : String) : a ++ b ++ c = a ++ (b ++ c) := by
  apply String.ext
  simp [String.data_append, List.append_assoc]

theorem pyJoin_cons (sep : String) (x : String) (xs : List String) :
    pyJoin sep (x :: xs) = x ++ prependEach sep xs := by
  induction xs generalizing x with
  | nil => simp [pyJoin, prependEach, strAppend_empty]
  | cons y ys ih =>
      simp only [pyJoin, prependEach]
      rw [ih y, strAppend_assoc, strAppend_assoc]

/-- C8: the composite text the builder embeds is exactly the
concatenation, in fixed order joined by single spaces, of name,
description, category, space-joined tags, then each parameter name
followed by its description. -/
theorem compositeText_eq_spec (m : MacroRecord) :
    compositeText m = specCompositeText m := by
  unfold compositeText specCompositeText
  simp only [List.cons_append, List.nil_append]
  rw [pyJoin_cons]
  simp only [prependEach]
  simp [strAppend_assoc]

/-!
Index builder: create_embeddings in generate_docs.py.  The FAISS
IndexFlatL2 structure is modelled as the list of vectors it holds; its
size (ntotal) is the length of that list.  The pickled artifact is the
dict with keys embeddings, macros, index.
-/

instance {ε α : Type} [DecidableEq ε] [DecidableEq α] : DecidableEq (Except ε α)
  | .error e, .error f => decidable_of_iff (e = f) (by simp)
  | .error _, .ok _ => isFalse (by simp)
  | .ok _, .error _ => isFalse (by simp)
  | .ok a, .ok b => decidable_of_iff (a = b) (by simp)

/-- The persisted artifact: the dict pickled by create_embeddings, with
the serialized FAISS index modelled as its stored vector list. -/
structure Artifact where
  embeddings : List (List ℚ)
  macros : List MacroRecord
  index : List (List ℚ)
  deriving DecidableEq

/-- The size invariant of section 3 of the spec:
len(records) == len(vectors) == index_structure.size(). -/
def sizeInvariant (a : Artifact) : Prop :=
  a.macros.length = a.embeddings.length ∧ a.embeddings.length = a.index.length

instance (a : Artifact) : Decidable (sizeInvariant a) := by
  unfold sizeInvariant; infer_instance

/-- create_embeddings: returns early (no artifact) when the record list
is empty; otherwise embeds each composite text in record order, builds
the IndexFlatL2 over the vectors in the same order, and assembles the
artifact dict. -/
def buildArtifact (embed : String → List ℚ) (ms : List MacroRecord) : Option Artifact :=
  if ms.isEmpty then none
  else
    let texts := ms.map compositeText
    let vecs := texts.map embed
    some ⟨vecs, ms, vecs⟩

/-- C7: every artifact built from a non-empty record sequence satisfies
len(records) == len(vectors) == index.size(), and vector i is the
embedding of the composite text of record i. -/
theorem buildArtifact_invariant (embed : String → List ℚ) (ms : List MacroRecord)
    (a : Artifact) (hne : ms ≠ []) (hb : buildArtifact embed ms = some a) :
    sizeInvariant a ∧
      ∀ (i : Nat) (h : i < a.macros.length) (h2 : i < a.embeddings.length),
        a.embeddings.get ⟨i, h2⟩ = embed (compositeText (a.macros.get ⟨i, h⟩)) := by
  unfold buildArtifact at hb
  rw [if_neg (by simpa using hne)] at hb
  cases hb
  refine ⟨⟨by simp, by simp⟩, ?_⟩
  intro i h h2
  simp [List.get_eq_getElem, List.getElem_map]

/-- A sample record used to instantiate theorems on concrete inputs. -/
def recA : MacroRecord :=
  ⟨"a", "d", "c", ["t"], [⟨"p", "char", true, "pd", none⟩], [], ""⟩

/-- A second sample record. -/
def recB : MacroRecord :=
  ⟨"b", "e", "c2", [], [], [⟨"ex", "code"⟩], ""⟩

/-- A stub deterministic embedder mapping a string to the one-element
vector holding its length, standing in for the external model. -/
def lenEmbed (s : String) : List ℚ := [(s.length : ℚ)]

theorem buildArtifact_invariant_witness :
    ([recA] ≠ ([] : List MacroRecord) ∧
      buildArtifact lenEmbed [recA] = some ⟨[[12]], [recA], [[12]]⟩) ∧
    (sizeInvariant ⟨[[12]], [recA], [[12]]⟩ ∧
      ∀ (i : Nat) (h : i < (Artifact.mk [[12]] [recA] [[12]]).macros.length)
        (h2 : i < (Artifact.mk [[12]] [recA] [[12]]).embeddings.length),
        (Artifact.mk [[12]] [recA] [[12]]).embeddings.get ⟨i, h2⟩ =
          lenEmbed (compositeText ((Artifact.mk [[12]] [recA] [[12]]).macros.get ⟨i, h⟩))) :=
  ⟨⟨by decide, by decide⟩,
    buildArtifact_invariant lenEmbed [recA] ⟨[[12]], [recA], [[12]]⟩ (by decide) (by decide)⟩

/-!
Artifact persistence: create_embeddings writes the pickle with
open(self.output_dir / embeddings.pkl, wb) followed by pickle.dump —
a direct, in-place write to the published path.  We model the write as
small file-system steps: opening the path with truncation, then the
chunks of the pickle stream (the final chunk flagged last), with an
explicit rename step available to represent an atomic publish.
-/

/-- A file-system step performed while persisting the artifact. -/
inductive FsStep where
  | openTrunc (path : String)
  | writeChunk (path : String) (last : Bool)
  | renameFile (src : String) (dst : String)
  deriving DecidableEq

/-- Whether a step is a rename (the atomic-publish primitive). -/
def FsStep.isRename : FsStep → Bool
  | .renameFile _ _ => true
  | _ => false

/-- The path readers (MacroSearchEngine.init) load the artifact from. -/
def publishPath : String := "embeddings.pkl"

/-- The steps create_embeddings performs at the published path: open
with truncation, then stream the pickle bytes directly into it.  No
temporary file and no rename appear in the source. -/
def createEmbeddingsSteps : List FsStep :=
  [.openTrunc publishPath, .writeChunk publishPath false, .writeChunk publishPath true]

/-- What a reader at the published path would observe. -/
inductive FileView where
  | oldComplete
  | truncated
  | partialNew
  | newComplete
  deriving DecidableEq

/-- Effect of one step on the published-path view: truncation empties
it, a non-final chunk leaves it partial, the final chunk or a rename
onto it completes it. -/
def stepView (v : FileView) : FsStep → FileView
  | .openTrunc p => if p = publishPath then .truncated else v
  | .writeChunk p last =>
      if p = publishPath then (if last then .newComplete else .partialNew) else v
  | .renameFile _ dst => if dst = publishPath then .newComplete else v

/-- View of the published path after running a step sequence over a
previously complete artifact. -/
def runView (steps : List FsStep) : FileView :=
  steps.foldl stepView .oldComplete

/-- Atomic publication: after any prefix of the steps (an interruption
point), the published path holds either the old complete artifact or
the new complete artifact — never a truncated or partial one. -/
def atomicPublish (steps : List FsStep) : Prop :=
  ∀ n : Nat, runView (steps.take n) = .oldComplete ∨ runView (steps.take n) = .newComplete

/-- C4 counterexample: the builder does not publish atomically — after
the open-with-truncation step (interruption point 1) the published path
is truncated, and after the first chunk (point 2) it is partial. -/
theorem createEmbeddings_not_atomic : ¬ atomicPublish createEmbeddingsSteps := by
  intro h
  rcases h 1 with h1 | h1 <;> exact absurd h1 (by decide)

/-- C4 amended: create_embeddings contains no rename step and writes
straight to the published path, so an interruption leaves a truncated
or partial artifact there, though an uninterrupted run completes it. -/
theorem createEmbeddings_write_direct :
    (∀ s ∈ createEmbeddingsSteps, s.isRename = false) ∧
      runView (createEmbeddingsSteps.take 1) = .truncated ∧
      runView (createEmbeddingsSteps.take 2) = .partialNew ∧
      runView createEmbeddingsSteps = .newComplete := by
  refine ⟨?_, by decide, by decide, by decide⟩
  decide

/-!
Extractor: extract_yaml_header and process_macros in generate_docs.py.
The regex search for the delimited block and yaml.safe_load are external
library calls; their outcome for a document is modelled by HeaderParse.
extract_yaml_header returns None when no block is found or when
safe_load raises; otherwise it returns the parsed value.  process_macros
then tests the returned value for Python truthiness before attaching the
file path and appending.
-/

/-- Outcome of the header-block regex search plus yaml.safe_load on one
document. -/
inductive HeaderParse where
  | noBlock
  | badYaml
  | parsedNull
  | parsedEmptyDict
  | parsedDict (m : MacroRecord)
  | parsedNonDict
  deriving DecidableEq

/-- Attach the document path to a parsed record, as doc[filepath] =
str(sas_file) does. -/
def setFilepath (m : MacroRecord) (p : String) : MacroRecord :=
  ⟨m.name, m.description, m.category, m.tags, m.parameters, m.examples, p⟩

/-- process_macros over the discovered documents (path plus parse
outcome, in discovery order): a missing or unparseable block yields
None (skipped), a falsy parse (null or empty mapping) fails the
truthiness test (skipped), a non-empty mapping gets the path attached
and is appended, and a truthy non-mapping raises a TypeError at the
item assignment, aborting the batch. -/
def processMacros : List (String × HeaderParse) → Except String (List MacroRecord)
  | [] => .ok []
  | (path, h) :: rest =>
    match h with
    | .parsedDict m =>
        match processMacros rest with
        | .ok l => .ok (setFilepath m path :: l)
        | .error e => .error e
    | .parsedNonDict => .error "TypeError"
    | _ => processMacros rest

/-- The record a document contributes, if any. -/
def recordOfDoc : String × HeaderParse → Option MacroRecord
  | (path, .parsedDict m) => some (setFilepath m path)
  | _ => none

/-- C9 counterexample: a document whose header block parses as valid
structured data — the empty YAML mapping, which is falsy in Python —
contributes no record, where the claim demands exactly one. -/
theorem processMacros_empty_dict_no_record :
    processMacros [("a.sas", HeaderParse.parsedEmptyDict)] = .ok [] ∧
      (processMacros [("a.sas", HeaderParse.parsedEmptyDict)] ≠
        .ok [setFilepath recA "a.sas"]) := by
  exact ⟨rfl, by decide⟩

/-- C9 amended: provided no document parses to a truthy non-mapping
value (which aborts the batch with a TypeError), extraction is
non-fatal and per-document: documents whose block is missing,
unparseable, or parses to a falsy value contribute no record, and each
document parsing to a non-empty mapping contributes exactly one record
with its path attached, in discovery order. -/
theorem processMacros_characterization (docs : List (String × HeaderParse))
    (h : ∀ d ∈ docs, d.2 ≠ HeaderParse.parsedNonDict) :
    processMacros docs = .ok (docs.filterMap recordOfDoc) := by
  induction docs with
  | nil => rfl
  | cons d rest ih =>
      obtain ⟨path, hp⟩ := d
      have hrest : ∀ d ∈ rest, d.2 ≠ HeaderParse.parsedNonDict :=
        fun d hd => h d (List.mem_cons_of_mem _ hd)
      have hhead := h (path, hp) (List.mem_cons_self _ _)
      cases hp with
      | parsedDict m => simp [processMacros, ih hrest, List.filterMap_cons, recordOfDoc]
      | parsedNonDict => exact absurd rfl hhead
      | noBlock => simpa [processMacros, List.filterMap_cons, recordOfDoc] using ih hrest
      | badYaml => simpa [processMacros, List.filterMap_cons, recordOfDoc] using ih hrest
      | parsedNull => simpa [processMacros, List.filterMap_cons, recordOfDoc] using ih hrest
      | parsedEmptyDict => simpa [processMacros, List.filterMap_cons, recordOfDoc] using ih hrest

theorem processMacros_characterization_witness :
    (∀ d ∈ [("a.sas", HeaderParse.noBlock), ("b.sas", HeaderParse.parsedDict recA),
        ("c.sas", HeaderParse.badYaml), ("d.sas", HeaderParse.parsedDict recB),
        ("e.sas", HeaderParse.parsedNull)],
      d.2 ≠ HeaderParse.parsedNonDict) ∧
    processMacros [("a.sas", HeaderParse.noBlock), ("b.sas", HeaderParse.parsedDict recA),
        ("c.sas", HeaderParse.badYaml), ("d.sas", HeaderParse.parsedDict recB),
        ("e.sas", HeaderParse.parsedNull)] =
      .ok [setFilepath recA "b.sas", setFilepath recB "d.sas"] := by
  constructor
  · decide
  · rw [processMacros_characterization _ (by decide)]
    decide

/-!
Search service: MacroSearchEngine in search_api.py.  FAISS
IndexFlatL2.search over an index holding N vectors returns, for k
requested neighbours, exactly k (label, distance) slots: the min(k, N)
true nearest vectors by squared L2 distance in ascending order, then
padding slots with label -1 and distance FLT_MAX.
-/

/-- Squared L2 distance, the metric IndexFlatL2 reports. -/
def sqDist (u v : List ℚ) : ℚ :=
  ((u.zip v).map (fun p => (p.1 - p.2) ^ 2)).sum

/-- The FLT_MAX sentinel FAISS writes into padded result slots,
modelled as a rational upper bound of float magnitude. -/
def fltMax : ℚ := 2 ^ 128

/-- Ordering of (distance, label) pairs: ascending distance, ties by
ascending label. -/
def pairLe (a b : ℚ × Int) : Prop :=
  a.1 < b.1 ∨ (a.1 = b.1 ∧ a.2 ≤ b.2)

instance : DecidableRel pairLe := by
  intro a b
  unfold pairLe
  infer_instance

instance : IsTotal (ℚ × Int) pairLe := by
  constructor
  intro a b
  rcases lt_trichotomy a.1 b.1 with h | h | h
  · exact Or.inl (Or.inl h)
  · rcases le_total a.2 b.2 with h2 | h2
    · exact Or.inl (Or.inr ⟨h, h2⟩)
    · exact Or.inr (Or.inr ⟨h.symm, h2⟩)
  · exact Or.inr (Or.inl h)

instance : IsTrans (ℚ × Int) pairLe := by
  constructor
  intro a b c hab hbc
  rcases hab with h1 | ⟨h1, h1b⟩ <;> rcases hbc with h2 | ⟨h2, h2b⟩
  · exact Or.inl (h1.trans h2)
  · exact Or.inl (h2 ▸ h1)
  · exact Or.inl (h1 ▸ h2)
  · exact Or.inr ⟨h1.trans h2, h1b.trans h2b⟩

/-- The (distance, label) pair of every stored vector against the query
vector. -/
def distPairs (index : List (List ℚ)) (q : List ℚ) : List (ℚ × Int) :=
  index.enum.map (fun p => (sqDist q p.2, (p.1 : Int)))

/-- The exhaustive scan of IndexFlatL2: all pairs ordered by ascending
distance, ties by ascending label. -/
def sortedPairs (index : List (List ℚ)) (q : List ℚ) : List (ℚ × Int) :=
  List.insertionSort pairLe (distPairs index q)

/-- index.search(query, k): the k result slots, each a (label,
distance) pair — the min(k, N) true neighbours followed by (-1,
FLT_MAX) padding.  A non-positive k yields no slots. -/
def faissSearch (index : List (List ℚ)) (q : List ℚ) (k : Int) : List (Int × ℚ) :=
  ((sortedPairs index q).take k.toNat).map (fun p => (p.2, p.1)) ++
    List.replicate (k.toNat - index.length) ((-1 : Int), fltMax)

/-- Python list indexing semantics, self.macros[idx]: a non-negative
index counts from the front, a negative one from the back; out of range
raises IndexError (modelled as none). -/
def pyIndex (l : List MacroRecord) (i : Int) : Option MacroRecord :=
  if 0 ≤ i then l.get? i.toNat
  else if (-i).toNat ≤ l.length then l.get? (l.length - (-i).toNat)
  else none

/-- The relevance transform applied to each returned distance:
float(1 / (1 + distance)). -/
def relevanceScore (d : ℚ) : ℚ := 1 / (1 + d)

/-- The result-assembly loop of MacroSearchEngine.search: for each
(label, distance) slot, if idx < len(self.macros) then append
self.macros[idx] with its relevance score; a failing list access
raises IndexError. -/
def assembleResults (ms : List MacroRecord) :
    List (Int × ℚ) → Except String (List (MacroRecord × ℚ))
  | [] => .ok []
  | (i, d) :: rest =>
    if i < (ms.length : Int) then
      match pyIndex ms i with
      | some m =>
          match assembleResults ms rest with
          | .ok res => .ok ((m, relevanceScore d) :: res)
          | .error e => .error e
      | none => .error "IndexError"
    else assembleResults ms rest

/-- The loaded search engine: the three artifact fields plus the
injected SentenceTransformer model. -/
structure MacroSearchEngine where
  embeddings : List (List ℚ)
  macros : List MacroRecord
  index : List (List ℚ)
  model : String → List ℚ

/-- MacroSearchEngine.search(query, top_k): embed the query, run the
FAISS search, assemble the scored results. -/
def MacroSearchEngine.search (e : MacroSearchEngine) (query : String) (top_k : Int) :
    Except String (List (MacroRecord × ℚ)) :=
  assembleResults e.macros (faissSearch e.index (e.model query) top_k)

/-- The declared default of the top_k parameter in the signature of
MacroSearchEngine.search is 5. -/
def MacroSearchEngine.searchDefault (e : MacroSearchEngine) (query : String) :
    Except String (List (MacroRecord × ℚ)) :=
  e.search query 5

/-- MacroSearchEngine.__init__: unpickle the artifact and store its
three fields, with no validation of any kind. -/
def MacroSearchEngine.init (model : String → List ℚ) (a : Artifact) :
    Except String MacroSearchEngine :=
  .ok ⟨a.embeddings, a.macros, a.index, model⟩

/-- An artifact violating the size invariant: zero vectors, one record,
an index holding two vectors. -/
def badArtifact : Artifact := ⟨[], [recA], [[0], [1]]⟩

/-- C3 counterexample: an artifact violating the size invariant loads
successfully — MacroSearchEngine.init performs no validation, so a
successful load does not imply the invariant. -/
theorem init_accepts_corrupt_artifact :
    (MacroSearchEngine.init lenEmbed badArtifact).isOk = true ∧ ¬ sizeInvariant badArtifact := by
  exact ⟨rfl, by decide⟩

/-- C3 amended: loading deserializes the three sequences and serves
every artifact unconditionally; the size invariant is never checked and
load never fails on a corrupt artifact. -/
theorem init_no_validation (model : String → List ℚ) (a : Artifact) :
    MacroSearchEngine.init model a = .ok ⟨a.embeddings, a.macros, a.index, model⟩ := rfl

/-- C5: each hit with distance d gets relevance score 1 / (1 + d); on
the non-negative distances IndexFlatL2 produces, the score is strictly
decreasing in distance, lies in (0, 1], and equals 1 exactly at
distance 0. -/
theorem relevanceScore_spec (d d2 : ℚ) (h : 0 ≤ d) (h2 : 0 ≤ d2) :
    relevanceScore d = 1 / (1 + d) ∧
      0 < relevanceScore d ∧
      relevanceScore d ≤ 1 ∧
      (relevanceScore d = 1 ↔ d = 0) ∧
      (d < d2 → relevanceScore d2 < relevanceScore d) := by
  have hpos : (0 : ℚ) < 1 + d := by linarith
  have hpos2 : (0 : ℚ) < 1 + d2 := by linarith
  refine ⟨rfl, ?_, ?_, ?_, ?_⟩
  · exact div_pos one_pos hpos
  · rw [relevanceScore, div_le_one hpos]; linarith
  · rw [relevanceScore, div_eq_one_iff_eq (ne_of_gt hpos)]
    constructor
    · intro hh; linarith
    · intro hh; rw [hh]; ring
  · intro hlt
    unfold relevanceScore
    rw [div_lt_div_iff₀ hpos2 hpos]
    linarith

theorem relevanceScore_spec_witness :
    ((0 : ℚ) ≤ 0 ∧ (0 : ℚ) ≤ 1) ∧
      (relevanceScore 0 = 1 / (1 + 0) ∧
        0 < relevanceScore 0 ∧
        relevanceScore 0 ≤ 1 ∧
        (relevanceScore 0 = 1 ↔ (0 : ℚ) = 0) ∧
        ((0 : ℚ) < 1 → relevanceScore 1 < relevanceScore 0)) :=
  ⟨⟨le_refl 0, by norm_num⟩, relevanceScore_spec 0 1 (le_refl 0) (by norm_num)⟩

/-!
Transport boundary: the /api/search endpoint in search_api.py.  The
request body supplies optional query and top_k fields; the handler
substitutes an empty string and 5 respectively, rejects a falsy query
with a 400 response, and otherwise calls the engine, whose uncaught
exceptions surface as a server error.
-/

/-- The JSON body of a search request. -/
structure SearchRequest where
  query : Option String
  top_k : Option Int
  deriving DecidableEq

/-- The response of the /api/search handler. -/
inductive ApiResponse where
  | badRequest (msg : String)
  | ok (results : List (MacroRecord × ℚ))
  | serverError (msg : String)
  deriving DecidableEq

/-- The /api/search view function: query = data.get(query, empty),
top_k = data.get(top_k, 5); an empty query yields the 400 error
response, anything else is passed straight to the engine. -/
def searchEndpoint (e : MacroSearchEngine) (req : SearchRequest) : ApiResponse :=
  let query := req.query.getD ""
  let top_k := req.top_k.getD 5
  if query = "" then .badRequest "Query is required"
  else
    match e.search query top_k with
    | .ok rs => .ok rs
    | .error msg => .serverError msg

/-- A loaded engine over a single record whose stored vector is [0],
with a stub embedder sending every string to [0]. -/
def oneRecEngine : MacroSearchEngine :=
  ⟨[[0]], [recA], [[0]], fun _ => [0]⟩

/-- A loaded engine over an empty collection. -/
def emptyEngine : MacroSearchEngine :=
  ⟨[], [], [], fun _ => [0]⟩

/-- C2 counterexample: a request with a non-empty query and top_k = 0
is not rejected — the handler validates only the query and passes a
non-positive top_k straight to the engine, which here returns an empty
result list instead of an InvalidQuery condition. -/
theorem searchEndpoint_accepts_nonpositive_topk :
    searchEndpoint oneRecEngine ⟨some "x", some 0⟩ = .ok [] := by decide

/-- C2 amended: the endpoint rejects with the InvalidQuery (400)
response exactly when the defaulted query string is empty; top_k is
never validated. -/
theorem searchEndpoint_badRequest_iff (e : MacroSearchEngine) (req : SearchRequest) :
    (∃ msg, searchEndpoint e req = .badRequest msg) ↔ req.query.getD "" = "" := by
  unfold searchEndpoint
  by_cases hq : req.query.getD "" = ""
  · simp [hq]
  · simp only [hq, if_neg hq, iff_false]
    intro ⟨msg, hmsg⟩
    cases he : MacroSearchEngine.search e (req.query.getD "") (req.top_k.getD 5) <;>
      rw [he] at hmsg <;> cases hmsg

/-- C10: an omitted top_k behaves identically to top_k = 5, both in the
engine signature default and in the endpoint body default. -/
theorem topk_default_is_five (e : MacroSearchEngine) (q : Option String) (s : String) :
    searchEndpoint e ⟨q, none⟩ = searchEndpoint e ⟨q, some 5⟩ ∧
      e.searchDefault s = e.search s 5 :=
  ⟨rfl, rfl⟩

/-- C1: with one record loaded and top_k = 2, search returns 2 results
rather than min(2, 1) = 1 — the guard idx < len(self.macros) admits the
FAISS padding label -1, so self.macros[-1] duplicates the last record;
and on an empty collection the same guard makes self.macros[-1] raise
IndexError instead of returning zero results. -/
theorem search_overcount_bug :
    (oneRecEngine.search "q" 2).map List.length = .ok 2 ∧
      min 2 oneRecEngine.macros.length = 1 ∧
      oneRecEngine.search "q" 2 =
        .ok [(recA, 1), (recA, relevanceScore fltMax)] ∧
      emptyEngine.search "q" 1 = .error "IndexError" := by
  refine ⟨?_, by decide, ?_, ?_⟩ <;> with_unfolding_all rfl

/-!
Ordering of search results (C6).  The FAISS scan orders result slots by
ascending distance with ties by ascending label; the assembly loop maps
slot distances to scores through the antitone relevance transform, so
result scores are non-increasing in rank.
-/

theorem sqDist_nonneg (u v : List ℚ) : 0 ≤ sqDist u v := by
  unfold sqDist
  apply List.sum_nonneg
  intro x hx
  obtain ⟨p, _, rfl⟩ := List.mem_map.mp hx
  positivity

theorem fltMax_nonneg : (0 : ℚ) ≤ fltMax := by unfold fltMax; positivity

theorem snd_mem_of_mem_enumFrom {α : Type} (l : List α) :
    ∀ (n : Nat) (p : Nat × α), p ∈ l.enumFrom n → p.2 ∈ l := by
  induction l with
  | nil => intro n p h; cases h
  | cons x xs ih =>
      intro n p h
      simp only [List.enumFrom] at h
      rcases List.mem_cons.mp h with h | h
      · rw [h]; exact List.mem_cons_self _ _
      · exact List.mem_cons_of_mem _ (ih (n + 1) p h)

theorem mem_distPairs {index : List (List ℚ)} {q : List ℚ} {x : ℚ × Int}
    (h : x ∈ distPairs index q) : ∃ v ∈ index, x.1 = sqDist q v := by
  unfold distPairs List.enum at h
  obtain ⟨p, hp, rfl⟩ := List.mem_map.mp h
  exact ⟨p.2, snd_mem_of_mem_enumFrom index 0 p hp, rfl⟩

theorem distPairs_snd_nodup (index : List (List ℚ)) (q : List ℚ) :
    ((distPairs index q).map Prod.snd).Nodup := by
  unfold distPairs
  rw [List.map_map]
  have h1 : (Prod.snd ∘ fun p : Nat × List ℚ => (sqDist q p.2, (p.1 : Int))) =
      ((fun n : Nat => (n : Int)) ∘ Prod.fst) := rfl
  rw [h1, ← List.map_map, List.enum_map_fst]
  exact (List.nodup_range _).map (fun a b h => by exact_mod_cast h)

theorem sortedPairs_sorted (index : List (List ℚ)) (q : List ℚ) :
    List.Sorted pairLe (sortedPairs index q) :=
  List.sorted_insertionSort pairLe (distPairs index q)

theorem sortedPairs_perm (index : List (List ℚ)) (q : List ℚ) :
    List.Perm (sortedPairs index q) (distPairs index q) :=
  List.perm_insertionSort pairLe (distPairs index q)

theorem mem_take_sortedPairs {index : List (List ℚ)} {q : List ℚ} {n : Nat}
    {x : ℚ × Int} (h : x ∈ (sortedPairs index q).take n) :
    ∃ v ∈ index, x.1 = sqDist q v :=
  mem_distPairs ((sortedPairs_perm index q).mem_iff.mp ((List.take_sublist n _).subset h))

theorem sortedPairs_take_strict (index : List (List ℚ)) (q : List ℚ) (n : Nat) :
    List.Pairwise (fun a b : ℚ × Int => a.1 < b.1 ∨ (a.1 = b.1 ∧ a.2 < b.2))
      ((sortedPairs index q).take n) := by
  have hle : List.Pairwise pairLe ((sortedPairs index q).take n) :=
    (sortedPairs_sorted index q).sublist (List.take_sublist n _)
  have hnd : (((sortedPairs index q).take n).map Prod.snd).Nodup := by
    have hall : ((sortedPairs index q).map Prod.snd).Nodup :=
      (((sortedPairs_perm index q).map Prod.snd).nodup_iff).mpr (distPairs_snd_nodup index q)
    exact hall.sublist ((List.take_sublist n _).map Prod.snd)
  have hne : List.Pairwise (fun a b : ℚ × Int => a.2 ≠ b.2) ((sortedPairs index q).take n) :=
    List.pairwise_map.mp hnd
  refine (hle.and hne).imp ?_
  rintro a b ⟨hab, hne2⟩
  rcases hab with h | ⟨h1, h2⟩
  · exact Or.inl h
  · exact Or.inr ⟨h1, lt_of_le_of_ne h2 hne2⟩

theorem faissSearch_dists (index : List (List ℚ)) (q : List ℚ) (k : Int)
    (hmax : ∀ v ∈ index, sqDist q v ≤ fltMax) :
    List.Pairwise (· ≤ ·) ((faissSearch index q k).map Prod.snd) ∧
      ∀ d ∈ (faissSearch index q k).map Prod.snd, 0 ≤ d := by
  have hform : (faissSearch index q k).map Prod.snd =
      ((sortedPairs index q).take k.toNat).map Prod.fst ++
        List.replicate (k.toNat - index.length) fltMax := by
    unfold faissSearch
    rw [List.map_append, List.map_map, List.map_replicate]
    have h2 : (Prod.snd ∘ fun p : ℚ × Int => (p.2, p.1)) = (Prod.fst : ℚ × Int → ℚ) := rfl
    rw [h2]
  rw [hform]
  have hmemL : ∀ a ∈ ((sortedPairs index q).take k.toNat).map Prod.fst,
      0 ≤ a ∧ a ≤ fltMax := by
    intro a ha
    obtain ⟨p, hp, rfl⟩ := List.mem_map.mp ha
    obtain ⟨v, hv, hpv⟩ := mem_take_sortedPairs hp
    rw [hpv]
    exact ⟨sqDist_nonneg q v, hmax v hv⟩
  constructor
  · rw [List.pairwise_append]
    refine ⟨?_, ?_, ?_⟩
    · rw [List.pairwise_map]
      refine ((sortedPairs_sorted index q).sublist (List.take_sublist _ _)).imp ?_
      intro a b hab
      rcases hab with h | ⟨h, _⟩
      · exact le_of_lt h
      · exact le_of_eq h
    · exact List.pairwise_replicate.mpr (Or.inr (le_refl fltMax))
    · intro a ha b hb
      rw [List.eq_of_mem_replicate hb]
      exact (hmemL a ha).2
  · intro d hd
    rcases List.mem_append.mp hd with hd | hd
    · exact (hmemL d hd).1
    · rw [List.eq_of_mem_replicate hd]
      exact fltMax_nonneg

theorem assembleResults_scores (ms : List MacroRecord) :
    ∀ (hits : List (Int × ℚ)) (res : List (MacroRecord × ℚ)),
      assembleResults ms hits = .ok res →
      ∃ ds : List ℚ, ds.Sublist (hits.map Prod.snd) ∧
        res.map Prod.snd = ds.map relevanceScore
  | [], res, h => by
      simp only [assembleResults, Except.ok.injEq] at h
      subst h
      exact ⟨[], List.nil_sublist _, rfl⟩
  | (i, d) :: rest, res, h => by
      simp only [assembleResults] at h
      by_cases hc : i < (ms.length : Int)
      · rw [if_pos hc] at h
        cases hp : pyIndex ms i with
        | none => rw [hp] at h; cases h
        | some m =>
            rw [hp] at h
            cases hr : assembleResults ms rest with
            | error e => rw [hr] at h; cases h
            | ok res2 =>
                rw [hr] at h
                simp only [Except.ok.injEq] at h
                subst h
                obtain ⟨ds, hsub, hm⟩ := assembleResults_scores ms rest res2 hr
                exact ⟨d :: ds, by simpa using hsub.cons₂ d, by simp [hm]⟩
      · rw [if_neg hc] at h
        obtain ⟨ds, hsub, hm⟩ := assembleResults_scores ms rest res h
        exact ⟨ds, by simpa using hsub.cons d, hm⟩

/-- C6: whenever search returns a result list, its scores are
non-increasing in rank position (descending score, ascending distance),
and the underlying FAISS ranking orders its slots by strictly ascending
(distance, original index) — distance ties broken by the lower original
index first; search is a pure function of the loaded index, so repeated
identical queries return identical output. -/
theorem search_results_ordered (e : MacroSearchEngine) (q : String) (k : Int)
    (res : List (MacroRecord × ℚ))
    (hmax : ∀ v ∈ e.index, sqDist (e.model q) v ≤ fltMax)
    (hok : e.search q k = .ok res) :
    List.Pairwise (fun a b : MacroRecord × ℚ => b.2 ≤ a.2) res ∧
      List.Pairwise (fun a b : ℚ × Int => a.1 < b.1 ∨ (a.1 = b.1 ∧ a.2 < b.2))
        ((sortedPairs e.index (e.model q)).take k.toNat) := by
  constructor
  · have hok2 : assembleResults e.macros (faissSearch e.index (e.model q) k) = .ok res := hok
    obtain ⟨ds, hsub, hmapeq⟩ := assembleResults_scores e.macros _ res hok2
    have hall := faissSearch_dists e.index (e.model q) k hmax
    have hds_le : List.Pairwise (· ≤ ·) ds := hall.1.sublist hsub
    have hds_nn : ∀ x ∈ ds, (0 : ℚ) ≤ x := fun x hx => hall.2 x (hsub.subset hx)
    have hsc : List.Pairwise (fun a b : ℚ => relevanceScore b ≤ relevanceScore a) ds := by
      refine hds_le.imp_of_mem ?_
      intro a b ha hb hab
      have hpa : (0 : ℚ) < 1 + a := by have := hds_nn a ha; linarith
      unfold relevanceScore
      exact one_div_le_one_div_of_le hpa (by linarith)
    have hres : List.Pairwise (fun a b : ℚ => b ≤ a) (res.map Prod.snd) := by
      rw [hmapeq, List.pairwise_map]
      exact hsc
    exact List.pairwise_map.mp hres
  · exact sortedPairs_take_strict e.index (e.model q) k.toNat

/-- A loaded engine over two records with stored vectors [0] and [3],
embedding a query string to the one-element vector of its length. -/
def wEngine : MacroSearchEngine :=
  ⟨[[0], [3]], [recA, recB], [[0], [3]], fun s => [(s.length : ℚ)]⟩

/-- The result list wEngine returns for query "xx" with top_k = 3: the
two true neighbours in ascending-distance order, then the padded slot
the buggy guard lets through. -/
def wRes : List (MacroRecord × ℚ) :=
  [(recB, relevanceScore 1), (recA, relevanceScore 4), (recB, relevanceScore fltMax)]

theorem search_results_ordered_witness :
    ((∀ v ∈ wEngine.index, sqDist (wEngine.model "xx") v ≤ fltMax) ∧
        wEngine.search "xx" 3 = .ok wRes) ∧
      (List.Pairwise (fun a b : MacroRecord × ℚ => b.2 ≤ a.2) wRes ∧
        List.Pairwise (fun a b : ℚ × Int => a.1 < b.1 ∨ (a.1 = b.1 ∧ a.2 < b.2))
          ((sortedPairs wEngine.index (wEngine.model "xx")).take (3 : Int).toNat)) := by
  have hq : wEngine.model "xx" = [(2 : ℚ)] := by with_unfolding_all rfl
  have hmax : ∀ v ∈ wEngine.index, sqDist (wEngine.model "xx") v ≤ fltMax := by
    rw [hq]
    intro v hv
    have hv2 : v = [(0 : ℚ)] ∨ v = [(3 : ℚ)] := by
      simpa [wEngine] using hv
    rcases hv2 with rfl | rfl <;> (unfold sqDist fltMax; norm_num)
  have hok : wEngine.search "xx" 3 = .ok wRes := by with_unfolding_all rfl
  exact ⟨⟨hmax, hok⟩, search_results_ordered wEngine "xx" 3 wRes hmax hok⟩

end SasDocs
